import Mathlib

/-!
Shallow embedding of the report model builder and value codec of
`hidlights-rs` (`src/lib.rs`).

Modelling conventions:
* Rust `u32` bit offsets become `Nat`; `i32` logical bounds become `Int`,
  with explicit two's-complement wrapping (`wrap32`, `u32cast`) at the
  operations where the source performs `i32`/`u32` arithmetic; the `u32`
  shift `1 << src_bit` masks its amount mod 32 (release-mode semantics,
  a debug build panics there), hence `testBit (k % 32)` in the writes.
* `f32` control values become `ℚ` with exact arithmetic; the `as i32`
  float-to-int cast is truncation toward zero (`ratTrunc`).  The source
  never exercises the saturating edge of the cast for clamped inputs
  (`|d * v| ≤ 2^31` when `d` is a wrapped `i32` and `v ∈ [0, 1]`), so
  saturation is not modelled.
* Fallible/panicking code paths return `Option`: `none` models a Rust
  panic (`u32` division by zero, `char::from_digit(i, 10).unwrap()` for
  `i ≥ 10`, out-of-bounds `bitvec` `set`, `buffer[0]` on an empty buffer).
* The external `hut` usage-table crate is abstracted as a resolution
  oracle `resolve : Usage → Option HutUsage`; the external device
  string-table lookup (`indexed_name`, which performs HID I/O) is
  abstracted as an oracle `iname : Option Nat → Usage → Option String`.
  Both are parameters of the builder; all theorems hold for every oracle.
-/

/-- Half-open bit range, the embedding of Rust `Range<u32>` (`start..end`;
`end` is a Lean keyword, so the field is called `stop`). -/
structure BitRange where
  start : Nat
  stop : Nat
deriving DecidableEq, Repr

/-- A HID usage: page and id (embedding of
`hidparser::report_data_types::Usage`). -/
structure Usage where
  page : Nat
  id : Nat
deriving DecidableEq, Repr

/-- The classification returned by the external `hut` crate's
`hut::Usage::new_from_page_and_id`, reduced to the page variants that
`is_vendor_usage` distinguishes.  `Other` stands for any further variant
(the `_ => true` arm of the source match). -/
inductive HutUsage where
  | GenericDesktop | SimulationControls | VRControls | SportControls
  | GameControls | GenericDeviceControls | KeyboardKeypad | LED | Button
  | Ordinal | TelephonyDevice | Consumer | Digitizers | Haptics
  | PhysicalInputDevice | Unicode | SoC | EyeandHeadTrackers
  | AuxiliaryDisplay | Sensors | MedicalInstrument | BrailleDisplay
  | LightingAndIllumination | Monitor | MonitorEnumerated
  | VESAVirtualControls | Power | BatterySystem | BarcodeScanner | Scales
  | MagneticStripeReader | CameraControl | Arcade | FIDOAlliance | Wacom
  | ReservedUsagePage | VendorDefinedPage | Other
deriving DecidableEq, Repr

/-- Embedding of `is_vendor_usage` (src/lib.rs:59-104): unresolvable
usages are treated as vendor ("We don't know so be safe"); resolved
usages are vendor exactly for reserved, vendor-defined, or
otherwise-unmatched pages. -/
def isVendorUsage (resolve : Usage → Option HutUsage) (u : Usage) : Bool :=
  match resolve u with
  | none => true
  | some p =>
    match p with
    | .GenericDesktop => false
    | .SimulationControls => false
    | .VRControls => false
    | .SportControls => false
    | .GameControls => false
    | .GenericDeviceControls => false
    | .KeyboardKeypad => false
    | .LED => false
    | .Button => false
    | .Ordinal => false
    | .TelephonyDevice => false
    | .Consumer => false
    | .Digitizers => false
    | .Haptics => false
    | .PhysicalInputDevice => false
    | .Unicode => false
    | .SoC => false
    | .EyeandHeadTrackers => false
    | .AuxiliaryDisplay => false
    | .Sensors => false
    | .MedicalInstrument => false
    | .BrailleDisplay => false
    | .LightingAndIllumination => false
    | .Monitor => false
    | .MonitorEnumerated => false
    | .VESAVirtualControls => false
    | .Power => false
    | .BatterySystem => false
    | .BarcodeScanner => false
    | .Scales => false
    | .MagneticStripeReader => false
    | .CameraControl => false
    | .Arcade => false
    | .FIDOAlliance => false
    | .Wacom => false
    | .ReservedUsagePage => true
    | .VendorDefinedPage => true
    | .Other => true

/-- Embedding of `hidparser::VariableField` as consumed by `reports`:
`attributes_variable` is `variable_field.attributes.variable`;
`string_index` is the optional string-table index. -/
structure VariableField where
  bits : BitRange
  usage : Usage
  logical_minimum : Int
  logical_maximum : Int
  string_index : Option Nat
  attributes_variable : Bool
deriving DecidableEq, Repr

/-- Embedding of `hidparser::ArrayField` as consumed by `reports`.
Designator entries carry no data the builder reads (the loop binds
`_designator`), so they are `Unit`; a string-list entry is modelled by
the value of `string.range().next()` (the first index of the slot's
string range, or `none` when the range is empty), which is all the
builder extracts from it. -/
structure ArrayField where
  bits : BitRange
  /-- A usage-list entry is modelled by the usage at `usage.start()` of
  its `UsageRange`, which is all the builder reads from it. -/
  usage_list : List Usage
  designator_list : List Unit
  string_list : List (Option Nat)
  logical_minimum : Int
  logical_maximum : Int
deriving DecidableEq, Repr

/-- Embedding of `hidparser::ReportField`. -/
inductive ReportField where
  | Variable (vf : VariableField)
  | Array (af : ArrayField)
  | Padding (bits : BitRange)
deriving DecidableEq, Repr

/-- One parsed output report, the input of the model builder
(`hidparser`'s `Report`): `report_id` is `None` when the device declares
no report id. -/
structure OutputReport where
  report_id : Option Nat
  size_in_bits : Nat
  fields : List ReportField
deriving DecidableEq, Repr

/-- Embedding of `DeviceOutputValue` (src/lib.rs:168-173). -/
inductive DeviceOutputValue where
  | Toggle
  | Signed (lo hi : Int)
  | Unsigned (lo hi : Int)
deriving DecidableEq, Repr

/-- Embedding of `DeviceOutput` (src/lib.rs:175-181); `real_value` is the
`f32` control value, modelled as `ℚ`. -/
structure DeviceOutput where
  kind : DeviceOutputValue
  real_value : ℚ
  bits : BitRange
  name : Option String
deriving DecidableEq, Repr

/-- Embedding of `Report` (src/lib.rs:183-188). -/
structure Report where
  id : Nat
  outputs : List DeviceOutput
  size_in_bits : Nat
deriving DecidableEq, Repr

/-- The per-slot loop of the `Array` branch of `reports`
(src/lib.rs:245-276): iterates the zip of designator, usage and string
lists with its (0-based) index `i`, skipping vendor usages; emits one
control per remaining slot with bits `start_bit..(start_bit + w)` where
`start_bit = bits.start + i * w`; `none` models the
`char::from_digit(i as _, 10).unwrap()` panic when `i ≥ 10`. -/
def arraySlots (resolve : Usage → Option HutUsage)
    (iname : Option Nat → Usage → Option String) (af : ArrayField)
    (w : Nat) : Nat → List ((Unit × Usage) × Option Nat) →
    Option (List DeviceOutput)
  | _, [] => some []
  | i, ((_, u), s) :: rest =>
    if isVendorUsage resolve u then
      arraySlots resolve iname af w (i + 1) rest
    else if i < 10 then
      (arraySlots resolve iname af w (i + 1) rest).map (fun cs =>
        { kind := if w = 1 then .Toggle
            else .Unsigned af.logical_minimum af.logical_maximum,
          real_value := 0,
          bits := ⟨af.bits.start + i * w, af.bits.start + i * w + w⟩,
          name :=
            some ((((iname s u).getD "Unk").push ' ').push
              (Char.ofNat (48 + i))) } :: cs)
    else none

/-- `designators.zip(usages).zip(strings)` from the `Array` branch. -/
def zipped (af : ArrayField) : List ((Unit × Usage) × Option Nat) :=
  (af.designator_list.zip af.usage_list).zip af.string_list

/-- The `Array` branch of `reports` (src/lib.rs:239-277): computes
`size = (bits.end - bits.start) / usage_list.len()` — `none` models the
`u32` division-by-zero panic when the usage list is empty — then runs
the slot loop from index 0. -/
def arrayFieldControls (resolve : Usage → Option HutUsage)
    (iname : Option Nat → Usage → Option String) (af : ArrayField) :
    Option (List DeviceOutput) :=
  if af.usage_list.length = 0 then none
  else
    arraySlots resolve iname af
      ((af.bits.stop - af.bits.start) / af.usage_list.length) 0 (zipped af)

/-- The controls one report field contributes (the `match rep_field`
in src/lib.rs:212-279): `Padding` contributes nothing; a `Variable`
field is skipped when its usage is vendor or it is not a true variable;
otherwise it contributes one control, `Toggle` when `bits.len() == 1`,
else `Unsigned(logical_minimum..=logical_maximum)`. -/
def fieldControls (resolve : Usage → Option HutUsage)
    (iname : Option Nat → Usage → Option String) :
    ReportField → Option (List DeviceOutput)
  | .Padding _ => some []
  | .Variable vf =>
    if isVendorUsage resolve vf.usage || !vf.attributes_variable then
      some []
    else
      some [{ kind := if vf.bits.stop - vf.bits.start = 1 then .Toggle
                else .Unsigned vf.logical_minimum vf.logical_maximum,
              real_value := 0,
              bits := vf.bits,
              name := some ((iname vf.string_index vf.usage).getD "Unk") }]
  | .Array af => arrayFieldControls resolve iname af

/-- The field loop of `reports` (src/lib.rs:211-280): the report's
outputs are the concatenation of every field's controls, in order. -/
def fieldsControls (resolve : Usage → Option HutUsage)
    (iname : Option Nat → Usage → Option String) :
    List ReportField → Option (List DeviceOutput)
  | [] => some []
  | f :: fs => do
    let a ← fieldControls resolve iname f
    let b ← fieldsControls resolve iname fs
    pure (a ++ b)

/-- One output report's `Report` (src/lib.rs:203-209): id defaults to 0
when the device declares none (`unwrap_or_default`). -/
def buildReport (resolve : Usage → Option HutUsage)
    (iname : Option Nat → Usage → Option String) (rep : OutputReport) :
    Option Report :=
  (fieldsControls resolve iname rep.fields).map (fun outs =>
    { id := rep.report_id.getD 0,
      outputs := outs,
      size_in_bits := rep.size_in_bits })

/-- The model builder `DeviceHandle::reports` (src/lib.rs:191-289),
downstream of the external descriptor parse: builds a `Report` per
parsed output report and drops reports whose output list is empty
(src/lib.rs:282-284). -/
def build (resolve : Usage → Option HutUsage)
    (iname : Option Nat → Usage → Option String) :
    List OutputReport → Option (List Report)
  | [] => some []
  | r :: rs => do
    let rep ← buildReport resolve iname r
    let rest ← build resolve iname rs
    pure (if rep.outputs.isEmpty then rest else rep :: rest)

/-- Two's-complement wrap of an integer into the `i32` range
`[-2^31, 2^31)`, the release-mode semantics of overflowing `i32`
arithmetic. -/
def wrap32 (z : Int) : Int :=
  (z + 2 ^ 31) % 2 ^ 32 - 2 ^ 31

/-- Rust `as u32` on an `i32` value: the value's two's-complement bit
pattern read as an unsigned integer. -/
def u32cast (z : Int) : Nat :=
  (z % 2 ^ 32).toNat

/-- Rust `f32 as i32`: truncation toward zero. -/
def ratTrunc (q : ℚ) : Int :=
  if 0 ≤ q then ⌊q⌋ else -⌊-q⌋

/-- `real_value.clamp(0.0, 1.0)` (src/lib.rs:297). -/
def clampQ (v : ℚ) : ℚ :=
  min (max v 0) 1

/-- `f32::EPSILON` = 2⁻²³, the toggle threshold (src/lib.rs:300). -/
def epsF : ℚ :=
  1 / 2 ^ 23

/-- The integer computed by the `Unsigned` (and, identically, `Signed`)
branch of `write_report` (src/lib.rs:315-316):
`x.start() + ((x.end() - x.start()) as f32 * v) as i32`, read back
`as u32`.  `v` is the already-clamped control value. -/
def unsignedValue (lo hi : Int) (v : ℚ) : Nat :=
  u32cast (wrap32 (lo + ratTrunc ((wrap32 (hi - lo) : ℚ) * v)))

/-- Sequential single-bit writes into the Msb0-flattened buffer
(`bits.set(i, b)` of `bitvec`): `none` models the out-of-bounds panic. -/
def setBits : List Bool → List (Nat × Bool) → Option (List Bool)
  | buf, [] => some buf
  | buf, (i, b) :: rest =>
    if i < buf.length then setBits (buf.set i b) rest else none

/-- The `(index, bit)` writes of the `Toggle` branch
(src/lib.rs:299-304): every position of the range gets `enabled`. -/
def toggleWrites (s e : Nat) (enabled : Bool) : List (Nat × Bool) :=
  (List.range (e - s)).map (fun k => (s + k, enabled))

/-- The writes of the `Signed` branch (src/lib.rs:305-313):
`out.bits.clone().enumerate()`, source bit `k` into position `s + k`.
The bit test is `(value & (1 << src_bit)) != 0` with a `u32` shift,
whose amount is masked mod 32 in a release build (a debug build panics
for `src_bit ≥ 32`), hence `testBit (k % 32)`. -/
def signedWrites (s e : Nat) (v : Nat) : List (Nat × Bool) :=
  (List.range (e - s)).map (fun k => (s + k, v.testBit (k % 32)))

/-- The writes of the `Unsigned` branch (src/lib.rs:317-322):
`out.bits.clone().rev().enumerate()`, source bit `k` into position
`e - 1 - k`.  The bit test is `(value & (1 << src_bit)) != 0` with a
`u32` shift, whose amount is masked mod 32 in a release build (a debug
build panics for `src_bit ≥ 32`), hence `testBit (k % 32)`. -/
def unsignedWrites (s e : Nat) (v : Nat) : List (Nat × Bool) :=
  (List.range (e - s)).map (fun k => (e - 1 - k, v.testBit (k % 32)))

/-- One control's contribution to the buffer: the body of the
`for out in &report.outputs` loop of `write_report`
(src/lib.rs:296-325). -/
def writeOutput (buf : List Bool) (out : DeviceOutput) :
    Option (List Bool) :=
  let v := clampQ out.real_value
  match out.kind with
  | .Toggle =>
    setBits buf (toggleWrites out.bits.start out.bits.stop
      (decide (epsF < v)))
  | .Signed lo hi =>
    setBits buf (signedWrites out.bits.start out.bits.stop
      (unsignedValue lo hi v))
  | .Unsigned lo hi =>
    let value := unsignedValue lo hi v
    if 0 < value then
      setBits buf (unsignedWrites out.bits.start out.bits.stop value)
    else
      some buf

/-- The controls loop of `write_report`, in order. -/
def writeOutputs : List Bool → List DeviceOutput → Option (List Bool)
  | buf, [] => some buf
  | buf, o :: os => do
    writeOutputs (← writeOutput buf o) os

/-- The 8 bits of one byte in Msb0 order (bit 0 of the view is the most
significant bit of byte 0). -/
def byteBits (b : Nat) : List Bool :=
  (List.range 8).map (fun k => b.testBit (7 - k))

/-- Reassemble one byte from 8 Msb0-ordered bits. -/
def bitsToByte (bs : List Bool) : Nat :=
  bs.foldl (fun a b => 2 * a + (if b then 1 else 0)) 0

/-- The bit buffer produced by `write_report` (src/lib.rs:291-325):
`size_in_bits.div_ceil(8)` zeroed bytes, `buffer[0] = report.id as u8`
(a panic — `none` — when the buffer is empty), then every control's
writes in order. -/
def encodeBits (r : Report) : Option (List Bool) :=
  let n := (r.size_in_bits + 7) / 8
  if n = 0 then none
  else
    writeOutputs (byteBits (r.id % 256) ++ List.replicate (8 * (n - 1)) false)
      r.outputs

/-- The byte buffer `write_report` hands to `self.device.write`
(the transport write itself is external). -/
def encode (r : Report) : Option (List Nat) :=
  (encodeBits r).map (fun bs =>
    (List.range (bs.length / 8)).map (fun j =>
      bitsToByte ((bs.drop (8 * j)).take 8)))

/-- Disjointness of two half-open bit ranges (empty ranges are disjoint
from everything). -/
def sepRange (a b : BitRange) : Prop :=
  a.stop ≤ b.start ∨ b.stop ≤ a.start ∨ a.stop ≤ a.start ∨ b.stop ≤ b.start

instance (a b : BitRange) : Decidable (sepRange a b) :=
  inferInstanceAs
    (Decidable (a.stop ≤ b.start ∨ b.stop ≤ a.start ∨ a.stop ≤ a.start ∨
      b.stop ≤ b.start))

/-- Interval containment of bit ranges. -/
def subRange (a b : BitRange) : Prop :=
  b.start ≤ a.start ∧ a.stop ≤ b.stop

instance (a b : BitRange) : Decidable (subRange a b) :=
  inferInstanceAs (Decidable (b.start ≤ a.start ∧ a.stop ≤ b.stop))

/-- The bit range a field occupies. -/
def fieldRange : ReportField → BitRange
  | .Variable vf => vf.bits
  | .Array af => af.bits
  | .Padding b => b

/-- Replace the value of the control at index `i` (the presentation
layer's mutation of one control's `real_value`). -/
def setVal : List DeviceOutput → Nat → ℚ → List DeviceOutput
  | [], _, _ => []
  | o :: os, 0, v => { o with real_value := v } :: os
  | o :: os, n + 1, v => o :: setVal os n v

/-- A report with the value of control `i` replaced. -/
def setControlValue (r : Report) (i : Nat) (v : ℚ) : Report :=
  { r with outputs := setVal r.outputs i v }

/-- The number of array slots the builder's zip actually iterates: the
minimum of the three list lengths. -/
def minLen3 (af : ArrayField) : Nat :=
  min (min af.designator_list.length af.usage_list.length)
    af.string_list.length

/-- The usage declared at slot `i` of an array field. -/
def usageAt (af : ArrayField) (i : Nat) : Usage :=
  af.usage_list.getD i ⟨0, 0⟩

/-- Modelled from the spec: `spanWidth = totalBits / usageCount`. -/
def spanWidth (af : ArrayField) : Nat :=
  (af.bits.stop - af.bits.start) / af.usage_list.length

/-- Modelled from the spec (claim C5's words): one bit range
`[bitsStart + i*spanWidth, bitsStart + (i+1)*spanWidth)` per non-vendor
slot position `i`, ranging over the positions the zip iterates. -/
def specSlotRanges (resolve : Usage → Option HutUsage) (af : ArrayField) :
    List BitRange :=
  (List.range (minLen3 af)).filterMap (fun i =>
    if isVendorUsage resolve (usageAt af i) then none
    else some ⟨af.bits.start + i * spanWidth af,
      af.bits.start + (i + 1) * spanWidth af⟩)

/-- A concrete fragment of the external `hut` usage table, used for the
closed witnesses and counterexamples: LED page 0x08 usage 0x01 resolves
(a standard usage), page 0xFF00 is vendor-defined, everything else is
unresolvable. -/
def sampleResolve : Usage → Option HutUsage := fun u =>
  if u.page = 8 && u.id = 1 then some .LED
  else if u.page = 65280 then some .VendorDefinedPage
  else none

/-- A concrete name oracle: a device with no string table (every lookup
falls through to `"Unk"`). -/
def sampleIName : Option Nat → Usage → Option String := fun _ _ => none

/-- LED page, usage 1 — a standard (non-vendor) usage. -/
def ledU : Usage :=
  ⟨8, 1⟩

/-- The spec's single-toggle scenario report: id 0, 9 bits, one `Toggle`
control at bits `0..1`, value `1.0`. -/
def scenarioReport : Report :=
  { id := 0, size_in_bits := 9,
    outputs := [⟨.Toggle, 1, ⟨0, 1⟩, some "Generic Indicator"⟩] }

/-- An array field with one (non-vendor) declared usage but empty
designator and string lists. -/
def cexAF : ArrayField :=
  ⟨⟨8, 12⟩, [ledU], [], [], 0, 5⟩

/-- An array field with three standard-usage slots over bits `10..16`. -/
def goodAF : ArrayField :=
  ⟨⟨10, 16⟩, [ledU, ledU, ledU], [(), (), ()], [none, none, none], 0, 5⟩

/-- A parsed report whose single field's bit range `0..2` exceeds its
declared `size_in_bits = 1`. -/
def c3Input : List OutputReport :=
  [⟨some 1, 1, [.Variable ⟨⟨0, 2⟩, ledU, 0, 1, none, true⟩]⟩]

/-- The control the builder emits for `c3Input`. -/
def c3Ctrl : DeviceOutput :=
  ⟨.Unsigned 0 1, 0, ⟨0, 2⟩, some "Unk"⟩

/-- The report the builder returns for `c3Input`. -/
def c3BuiltReport : Report :=
  { id := 1, outputs := [c3Ctrl], size_in_bits := 1 }

/-- A parsed report containing an array field with an empty usage
list. -/
def divInput : List OutputReport :=
  [⟨some 0, 8, [.Array ⟨⟨8, 12⟩, [], [], [], 0, 1⟩]⟩]

/-- A well-formed parsed report: one single-bit variable field at `8..9`
and the three-slot array field, disjoint and inside 24 bits. -/
def goodInput : List OutputReport :=
  [⟨some 2, 24, [.Variable ⟨⟨8, 9⟩, ledU, 0, 1, none, true⟩,
    .Array goodAF]⟩]

/-- The controls the builder emits for `goodAF`. -/
def goodAFouts : List DeviceOutput :=
  [⟨.Unsigned 0 5, 0, ⟨10, 12⟩, some "Unk 0"⟩,
   ⟨.Unsigned 0 5, 0, ⟨12, 14⟩, some "Unk 1"⟩,
   ⟨.Unsigned 0 5, 0, ⟨14, 16⟩, some "Unk 2"⟩]

/-- The report the builder returns for `goodInput`. -/
def goodRep : Report :=
  { id := 2,
    outputs := ⟨.Toggle, 0, ⟨8, 9⟩, some "Unk"⟩ :: goodAFouts,
    size_in_bits := 24 }

/-- The toggle control of `goodRep`. -/
def goodToggle : DeviceOutput :=
  ⟨.Toggle, 0, ⟨8, 9⟩, some "Unk"⟩

/-- A variable field with a vendor-defined usage page. -/
def vendorVF : VariableField :=
  ⟨⟨0, 4⟩, ⟨65280, 7⟩, 0, 3, none, true⟩

theorem setBits_length (ws : List (Nat × Bool)) :
    ∀ buf out : List Bool, setBits buf ws = some out →
      out.length = buf.length := by
  induction ws with
  | nil =>
    intro buf out h
    simp only [setBits, Option.some.injEq] at h
    subst h; rfl
  | cons p rest ih =>
    intro buf out h
    obtain ⟨i, b⟩ := p
    simp only [setBits] at h
    split at h
    · have := ih (buf.set i b) out h
      simpa using this
    · simp at h

theorem setBits_isSome (ws : List (Nat × Bool)) :
    ∀ buf : List Bool, (∀ p ∈ ws, p.1 < buf.length) →
      ∃ out, setBits buf ws = some out := by
  induction ws with
  | nil => intro buf _; exact ⟨buf, rfl⟩
  | cons p rest ih =>
    intro buf hp
    obtain ⟨i, b⟩ := p
    have hi : i < buf.length := hp (i, b) (by simp)
    have hrest : ∀ q ∈ rest, q.1 < (buf.set i b).length := by
      intro q hq
      rw [List.length_set]
      exact hp q (by simp [hq])
    obtain ⟨out, hout⟩ := ih _ hrest
    refine ⟨out, ?_⟩
    simp only [setBits]
    rw [if_pos hi]
    exact hout

theorem setBits_unwritten (ws : List (Nat × Bool)) :
    ∀ buf out : List Bool, setBits buf ws = some out →
      ∀ j, (∀ p ∈ ws, p.1 ≠ j) → out[j]? = buf[j]? := by
  induction ws with
  | nil =>
    intro buf out h j _
    simp only [setBits, Option.some.injEq] at h
    subst h; rfl
  | cons p rest ih =>
    intro buf out h j hj
    obtain ⟨i, b⟩ := p
    simp only [setBits] at h
    split at h
    · have h1 := ih _ _ h j (fun q hq => hj q (by simp [hq]))
      rw [h1, List.getElem?_set_ne (hj (i, b) (by simp))]
    · simp at h

theorem setBits_written (ws : List (Nat × Bool)) :
    ∀ buf out : List Bool, setBits buf ws = some out →
      ws.Pairwise (fun p q => p.1 ≠ q.1) →
      ∀ p ∈ ws, out[p.1]? = some p.2 := by
  induction ws with
  | nil => intro buf out _ _ p hp; simp at hp
  | cons q rest ih =>
    intro buf out h hpw p hp
    obtain ⟨i, b⟩ := q
    simp only [setBits] at h
    split at h
    · rename_i hi
      rcases List.mem_cons.mp hp with hEq | hMem
      · subst hEq
        have hne : ∀ r ∈ rest, r.1 ≠ (i, b).1 := by
          intro r hr hc
          exact (List.pairwise_cons.mp hpw).1 r hr hc.symm
        have h1 := setBits_unwritten rest _ _ h (i, b).1 hne
        rw [h1]
        exact List.getElem?_set_self hi
      · exact ih _ _ h (List.pairwise_cons.mp hpw).2 p hMem
    · simp at h

theorem unsignedWrites_pairwise (s e v : Nat) :
    (unsignedWrites s e v).Pairwise (fun p q => p.1 ≠ q.1) := by
  unfold unsignedWrites
  rw [List.pairwise_map]
  refine (List.pairwise_lt_range (e - s)).imp_of_mem ?_
  intro a b ha hb hab
  simp only [List.mem_range] at ha hb
  simp only []
  omega

theorem unsignedValue_zero_three_one : unsignedValue 0 3 (clampQ 1) = 3 := by
  norm_num [unsignedValue, clampQ, ratTrunc, wrap32, u32cast]
  rfl

/-- C4 (confirmed): for every `Unsigned` control whose encoded integer
value is non-zero, `write_report` fills the control's bit range from its
highest-order position down to its lowest, sourcing bit 0 (the LSB) of
the integer value into the last position of the range, bit 1 into the
second-to-last, and so on: position `j` of `[s, e)` receives bit
`e - 1 - j` of the value, and every position outside the range is
untouched.  The range width is bounded by 32, the bit width of the
`u32` value: for wider ranges the source's `1 << src_bit` shift
overflows (masked mod 32 in release, a panic in debug), so the claimed
bit-for-bit pattern only covers widths up to 32. -/
theorem claim_C4_unsigned_reverse_fill (lo hi : Int) (x : ℚ) (s e : Nat)
    (nm : Option String) (buf : List Bool) (hlen : e ≤ buf.length)
    (hwidth : e - s ≤ 32)
    (hnz : unsignedValue lo hi (clampQ x) ≠ 0) :
    ∃ out, writeOutput buf ⟨.Unsigned lo hi, x, ⟨s, e⟩, nm⟩ = some out ∧
      out.length = buf.length ∧
      (∀ j, s ≤ j → j < e →
        out[j]? =
          some ((unsignedValue lo hi (clampQ x)).testBit (e - 1 - j))) ∧
      (∀ j, j < s ∨ e ≤ j → out[j]? = buf[j]?) := by
  have hpos : 0 < unsignedValue lo hi (clampQ x) := Nat.pos_of_ne_zero hnz
  have hbnd : ∀ p ∈ unsignedWrites s e (unsignedValue lo hi (clampQ x)),
      p.1 < buf.length := by
    intro p hp
    simp only [unsignedWrites, List.mem_map, List.mem_range] at hp
    obtain ⟨k, hk, rfl⟩ := hp
    simp only []
    omega
  obtain ⟨out, hout⟩ := setBits_isSome _ _ hbnd
  refine ⟨out, ?_, setBits_length _ _ _ hout, ?_, ?_⟩
  · simp only [writeOutput]
    rw [if_pos hpos]
    exact hout
  · intro j hsj hje
    have hmem : (j, (unsignedValue lo hi (clampQ x)).testBit (e - 1 - j)) ∈
        unsignedWrites s e (unsignedValue lo hi (clampQ x)) := by
      simp only [unsignedWrites, List.mem_map, List.mem_range]
      refine ⟨e - 1 - j, by omega, ?_⟩
      rw [Prod.mk.injEq]
      exact ⟨by omega, by rw [Nat.mod_eq_of_lt (by omega)]⟩
    have := setBits_written _ _ _ hout (unsignedWrites_pairwise s e _) _ hmem
    simpa using this
  · intro j hj
    refine setBits_unwritten _ _ _ hout j ?_
    intro p hp
    simp only [unsignedWrites, List.mem_map, List.mem_range] at hp
    obtain ⟨k, hk, rfl⟩ := hp
    simp only []
    omega

/-- Witness for C4 at `Unsigned(0..=3)`, value 1 (encoded integer 3),
bits `8..10` over a 16-bit buffer. -/
theorem claim_C4_unsigned_reverse_fill_witness :
    10 ≤ (List.replicate 16 false).length ∧ 10 - 8 ≤ 32 ∧
      unsignedValue 0 3 (clampQ 1) ≠ 0 ∧
      ∃ out,
        writeOutput (List.replicate 16 false)
          ⟨.Unsigned 0 3, 1, ⟨8, 10⟩, none⟩ = some out ∧
        out.length = (List.replicate 16 false).length ∧
        (∀ j, 8 ≤ j → j < 10 →
          out[j]? =
            some ((unsignedValue 0 3 (clampQ 1)).testBit (10 - 1 - j))) ∧
        (∀ j, j < 8 ∨ 10 ≤ j → out[j]? = (List.replicate 16 false)[j]?) :=
  ⟨by decide, by decide, by simp [unsignedValue_zero_three_one],
    claim_C4_unsigned_reverse_fill 0 3 1 8 10 none (List.replicate 16 false)
      (by decide) (by decide) (by simp [unsignedValue_zero_three_one])⟩
theorem arraySlots_bits (resolve : Usage → Option HutUsage)
    (iname : Option Nat → Usage → Option String) (af : ArrayField) (w : Nat) :
    ∀ (l : List ((Unit × Usage) × Option Nat)) (i : Nat)
      (outs : List DeviceOutput),
      arraySlots resolve iname af w i l = some outs →
      outs.map (fun c => c.bits) =
        (l.enumFrom i).filterMap (fun p =>
          if isVendorUsage resolve p.2.1.2 then none
          else some ⟨af.bits.start + p.1 * w, af.bits.start + p.1 * w + w⟩) := by
  intro l
  induction l with
  | nil =>
    intro i outs h
    simp only [arraySlots, Option.some.injEq] at h
    subst h
    simp
  | cons x rest ih =>
    intro i outs h
    obtain ⟨⟨d, u⟩, s⟩ := x
    simp only [arraySlots] at h
    rw [List.enumFrom_cons, List.filterMap_cons]
    by_cases hv : isVendorUsage resolve u = true
    · rw [if_pos hv] at h
      simp only [hv, if_true]
      exact ih (i + 1) outs h
    · rw [if_neg hv] at h
      split at h
      · cases hrec : arraySlots resolve iname af w (i + 1) rest with
        | none => rw [hrec] at h; simp at h
        | some cs =>
          rw [hrec] at h
          simp only [Option.map_some', Option.some.injEq] at h
          subst h
          simp only [hv, if_false, Bool.false_eq_true, List.map_cons]
          rw [ih (i + 1) cs hrec]
      · simp at h

theorem arraySlots_mem (resolve : Usage → Option HutUsage)
    (iname : Option Nat → Usage → Option String) (af : ArrayField) (w : Nat) :
    ∀ (l : List ((Unit × Usage) × Option Nat)) (i : Nat)
      (outs : List DeviceOutput),
      arraySlots resolve iname af w i l = some outs →
      ∀ c ∈ outs, ∃ j, i ≤ j ∧ j < i + l.length ∧
        c.bits = ⟨af.bits.start + j * w, af.bits.start + j * w + w⟩ ∧
        c.kind = (if w = 1 then DeviceOutputValue.Toggle
          else .Unsigned af.logical_minimum af.logical_maximum) := by
  intro l
  induction l with
  | nil =>
    intro i outs h c hc
    simp only [arraySlots, Option.some.injEq] at h
    subst h
    simp at hc
  | cons x rest ih =>
    intro i outs h c hc
    obtain ⟨⟨d, u⟩, s⟩ := x
    simp only [arraySlots] at h
    by_cases hv : isVendorUsage resolve u = true
    · rw [if_pos hv] at h
      obtain ⟨j, h1, h2, h3, h4⟩ := ih (i + 1) outs h c hc
      refine ⟨j, by omega, ?_, h3, h4⟩
      simp only [List.length_cons]
      omega
    · rw [if_neg hv] at h
      split at h
      · cases hrec : arraySlots resolve iname af w (i + 1) rest with
        | none => rw [hrec] at h; simp at h
        | some cs =>
          rw [hrec] at h
          simp only [Option.map_some', Option.some.injEq] at h
          subst h
          rcases List.mem_cons.mp hc with rfl | hm
          · exact ⟨i, le_refl i, by simp, rfl, rfl⟩
          · obtain ⟨j, h1, h2, h3, h4⟩ := ih (i + 1) cs hrec c hm
            refine ⟨j, by omega, ?_, h3, h4⟩
            simp only [List.length_cons] at h2 ⊢
            omega
      · simp at h

theorem enumFrom_zip3_filterMap {α β γ δ : Type} (da : α) (db : β) (dc : γ)
    (f : Nat × ((α × β) × γ) → Option δ) :
    ∀ (A : List α) (B : List β) (C : List γ) (j : Nat),
      (((A.zip B).zip C).enumFrom j).filterMap f =
        (List.range (min (min A.length B.length) C.length)).filterMap
          (fun k => f (j + k, ((A.getD k da, B.getD k db), C.getD k dc))) := by
  intro A
  induction A with
  | nil => intro B C j; simp
  | cons a A' ih =>
    intro B C j
    cases B with
    | nil => simp
    | cons b B' =>
      cases C with
      | nil => simp
      | cons c C' =>
        have hlen : min (min (a :: A').length (b :: B').length)
            (c :: C').length = min (min A'.length B'.length) C'.length + 1 := by
          simp only [List.length_cons]
          omega
        have htail :
            (((A'.zip B').zip C').enumFrom (j + 1)).filterMap f =
              List.filterMap
                ((fun k => f (j + k,
                  (((a :: A').getD k da, (b :: B').getD k db),
                    (c :: C').getD k dc))) ∘ Nat.succ)
                (List.range (min (min A'.length B'.length) C'.length)) := by
          rw [ih B' C' (j + 1)]
          congr 1
          funext k
          simp only [Function.comp_apply, List.getD_cons_succ]
          have hjk : j + Nat.succ k = j + 1 + k := by omega
          rw [hjk]
        rw [hlen, List.range_succ_eq_map, List.filterMap_cons,
          List.zip_cons_cons, List.zip_cons_cons, List.enumFrom_cons,
          List.filterMap_cons, List.filterMap_map, htail]
        simp only [List.getD_cons_zero, Nat.add_zero]

theorem afc_bits (resolve : Usage → Option HutUsage)
    (iname : Option Nat → Usage → Option String) (af : ArrayField)
    (outs : List DeviceOutput)
    (h : arrayFieldControls resolve iname af = some outs) :
    outs.map (fun c => c.bits) = specSlotRanges resolve af := by
  simp only [arrayFieldControls] at h
  split at h
  · simp at h
  · have hb := arraySlots_bits resolve iname af
      ((af.bits.stop - af.bits.start) / af.usage_list.length)
      (zipped af) 0 outs h
    rw [hb]
    unfold zipped
    rw [enumFrom_zip3_filterMap () ⟨0, 0⟩ none _ af.designator_list
      af.usage_list af.string_list 0]
    unfold specSlotRanges minLen3 usageAt spanWidth
    congr 1
    funext k
    simp only [Nat.zero_add]
    split
    · rfl
    · congr 2
      rw [add_one_mul]
      omega

/-- C5 (corrected): for an array field, `spanWidth = totalBits /
usageCount`, and one control per **iterated** non-vendor slot position
`i`, with bits `[bitsStart + i*spanWidth, bitsStart + (i+1)*spanWidth)`;
the positions iterated are `i < min(|designators|, |usages|, |strings|)`
(the zip truncates to the shortest list), not every declared usage
position. -/
theorem claim_C5_array_slot_ranges (resolve : Usage → Option HutUsage)
    (iname : Option Nat → Usage → Option String) (af : ArrayField)
    (outs : List DeviceOutput)
    (h : arrayFieldControls resolve iname af = some outs) :
    outs.map (fun c => c.bits) = specSlotRanges resolve af :=
  afc_bits resolve iname af outs h

/-- Witness for C5: the three-slot array field. -/
theorem claim_C5_array_slot_ranges_witness :
    arrayFieldControls sampleResolve sampleIName goodAF = some goodAFouts ∧
      goodAFouts.map (fun c => c.bits) = specSlotRanges sampleResolve goodAF :=
  ⟨by decide, claim_C5_array_slot_ranges sampleResolve sampleIName goodAF
    goodAFouts (by decide)⟩

/-- Counterexample to C5 as stated: `cexAF` declares one usage
(position 0, non-vendor, `spanWidth = 4`), so the claim predicts one
control with bits `[8, 12)`; but its designator and string lists are
empty, the zip iterates nothing, and the builder emits no control. -/
theorem claim_C5_cex :
    arrayFieldControls sampleResolve sampleIName cexAF = some [] ∧
      isVendorUsage sampleResolve (usageAt cexAF 0) = false ∧
      cexAF.usage_list.length = 1 ∧ spanWidth cexAF = 4 := by
  decide

theorem fieldControls_kind_facts (resolve : Usage → Option HutUsage)
    (iname : Option Nat → Usage → Option String) (f : ReportField)
    (cs : List DeviceOutput) (h : fieldControls resolve iname f = some cs) :
    ∀ c ∈ cs, (c.bits.stop - c.bits.start = 1 → c.kind = .Toggle) ∧
      (c.kind = .Toggle ∨ ∃ lo hi, c.kind = .Unsigned lo hi) := by
  cases f with
  | Padding b =>
    simp only [fieldControls, Option.some.injEq] at h
    subst h
    intro c hc
    simp at hc
  | Variable vf =>
    simp only [fieldControls] at h
    split at h
    · simp only [Option.some.injEq] at h
      subst h
      intro c hc
      simp at hc
    · simp only [Option.some.injEq] at h
      subst h
      intro c hc
      simp only [List.mem_singleton] at hc
      subst hc
      dsimp only
      constructor
      · intro hlen
        rw [if_pos hlen]
      · by_cases h1 : vf.bits.stop - vf.bits.start = 1
        · left
          rw [if_pos h1]
        · right
          exact ⟨vf.logical_minimum, vf.logical_maximum, by rw [if_neg h1]⟩
  | Array af =>
    intro c hc
    simp only [fieldControls, arrayFieldControls] at h
    split at h
    · simp at h
    · obtain ⟨j, h1, h2, h3, h4⟩ := arraySlots_mem resolve iname af
        ((af.bits.stop - af.bits.start) / af.usage_list.length)
        (zipped af) 0 cs h c hc
      constructor
      · intro hlen
        rw [h3] at hlen
        dsimp only at hlen
        rw [h4, if_pos (by omega)]
      · rw [h4]
        by_cases h5 :
            (af.bits.stop - af.bits.start) / af.usage_list.length = 1
        · left
          rw [if_pos h5]
        · right
          exact ⟨af.logical_minimum, af.logical_maximum, by rw [if_neg h5]⟩

theorem fieldControls_sub (resolve : Usage → Option HutUsage)
    (iname : Option Nat → Usage → Option String) (f : ReportField)
    (cs : List DeviceOutput)
    (hwf : (fieldRange f).start ≤ (fieldRange f).stop)
    (h : fieldControls resolve iname f = some cs) :
    ∀ c ∈ cs, subRange c.bits (fieldRange f) := by
  cases f with
  | Padding b =>
    simp only [fieldControls, Option.some.injEq] at h
    subst h
    intro c hc
    simp at hc
  | Variable vf =>
    simp only [fieldControls] at h
    split at h
    · simp only [Option.some.injEq] at h
      subst h
      intro c hc
      simp at hc
    · simp only [Option.some.injEq] at h
      subst h
      intro c hc
      simp only [List.mem_singleton] at hc
      subst hc
      exact ⟨le_refl _, le_refl _⟩
  | Array af =>
    intro c hc
    simp only [fieldControls, arrayFieldControls] at h
    split at h
    · simp at h
    · rename_i hne
      obtain ⟨j, h1, h2, h3, h4⟩ := arraySlots_mem resolve iname af
        ((af.bits.stop - af.bits.start) / af.usage_list.length)
        (zipped af) 0 cs h c hc
      rw [h3]
      simp only [fieldRange] at hwf ⊢
      have hz : (zipped af).length ≤ af.usage_list.length := by
        unfold zipped
        rw [List.length_zip, List.length_zip]
        omega
      have hj : j + 1 ≤ af.usage_list.length := by omega
      have hw2 : (j + 1) *
          ((af.bits.stop - af.bits.start) / af.usage_list.length) ≤
          af.bits.stop - af.bits.start :=
        le_trans (Nat.mul_le_mul_right _ hj)
          (by
            rw [Nat.mul_comm]
            exact Nat.div_mul_le_self _ _)
      rw [add_one_mul] at hw2
      exact ⟨by dsimp only; omega, by dsimp only; omega⟩

theorem specSlotRanges_pairwise (resolve : Usage → Option HutUsage)
    (af : ArrayField) : (specSlotRanges resolve af).Pairwise sepRange := by
  unfold specSlotRanges
  refine List.Pairwise.filterMap _ ?_ (List.pairwise_lt_range _)
  intro a b hab x hx y hy
  split at hx
  · simp at hx
  · simp only [Option.mem_def, Option.some.injEq] at hx
    subst hx
    split at hy
    · simp at hy
    · simp only [Option.mem_def, Option.some.injEq] at hy
      subst hy
      left
      dsimp only
      have h1 : (a + 1) * spanWidth af ≤ b * spanWidth af :=
        Nat.mul_le_mul_right _ hab
      omega

theorem fieldControls_pairwise (resolve : Usage → Option HutUsage)
    (iname : Option Nat → Usage → Option String) (f : ReportField)
    (cs : List DeviceOutput) (h : fieldControls resolve iname f = some cs) :
    (cs.map (fun c => c.bits)).Pairwise sepRange := by
  cases f with
  | Padding b =>
    simp only [fieldControls, Option.some.injEq] at h
    subst h
    simp
  | Variable vf =>
    simp only [fieldControls] at h
    split at h
    · simp only [Option.some.injEq] at h
      subst h
      simp
    · simp only [Option.some.injEq] at h
      subst h
      simp
  | Array af =>
    rw [afc_bits resolve iname af cs h]
    exact specSlotRanges_pairwise resolve af

theorem sepRange_of_sub (a b fa fb : BitRange) (ha : subRange a fa)
    (hb : subRange b fb) (hsep : sepRange fa fb) : sepRange a b := by
  unfold subRange at ha hb
  unfold sepRange at hsep ⊢
  omega

theorem fieldsControls_cons (resolve : Usage → Option HutUsage)
    (iname : Option Nat → Usage → Option String) (f : ReportField)
    (fs : List ReportField) :
    fieldsControls resolve iname (f :: fs) =
      (fieldControls resolve iname f).bind (fun a =>
        (fieldsControls resolve iname fs).bind (fun b => some (a ++ b))) :=
  rfl

theorem fieldsControls_origin (resolve : Usage → Option HutUsage)
    (iname : Option Nat → Usage → Option String) :
    ∀ (fs : List ReportField) (cs : List DeviceOutput),
      fieldsControls resolve iname fs = some cs →
      ∀ c ∈ cs, ∃ f ∈ fs, ∃ l, fieldControls resolve iname f = some l ∧
        c ∈ l := by
  intro fs
  induction fs with
  | nil =>
    intro cs h c hc
    simp only [fieldsControls, Option.some.injEq] at h
    subst h
    simp at hc
  | cons f fs' ih =>
    intro cs h c hc
    rw [fieldsControls_cons] at h
    cases h1 : fieldControls resolve iname f with
    | none => rw [h1] at h; simp at h
    | some a =>
      rw [h1] at h
      cases h2 : fieldsControls resolve iname fs' with
      | none => rw [h2] at h; simp at h
      | some b =>
        rw [h2] at h
        simp only [Option.some_bind, Option.some.injEq] at h
        subst h
        rcases List.mem_append.mp hc with hma | hmb
        · exact ⟨f, by simp, a, h1, hma⟩
        · obtain ⟨g, hg, l, hl, hcl⟩ := ih b h2 c hmb
          exact ⟨g, by simp [hg], l, hl, hcl⟩

theorem fieldsControls_pairwise (resolve : Usage → Option HutUsage)
    (iname : Option Nat → Usage → Option String) :
    ∀ (fs : List ReportField) (cs : List DeviceOutput),
      fieldsControls resolve iname fs = some cs →
      (∀ f ∈ fs, (fieldRange f).start ≤ (fieldRange f).stop) →
      (fs.map fieldRange).Pairwise sepRange →
      (cs.map (fun c => c.bits)).Pairwise sepRange := by
  intro fs
  induction fs with
  | nil =>
    intro cs h _ _
    simp only [fieldsControls, Option.some.injEq] at h
    subst h
    simp
  | cons f fs' ih =>
    intro cs h hwf hpw
    rw [fieldsControls_cons] at h
    cases h1 : fieldControls resolve iname f with
    | none => rw [h1] at h; simp at h
    | some a =>
      rw [h1] at h
      cases h2 : fieldsControls resolve iname fs' with
      | none => rw [h2] at h; simp at h
      | some b =>
        rw [h2] at h
        simp only [Option.some_bind, Option.some.injEq] at h
        subst h
        rw [List.map_append, List.pairwise_append]
        refine ⟨fieldControls_pairwise resolve iname f a h1, ?_, ?_⟩
        · exact ih b h2 (fun g hg => hwf g (by simp [hg]))
            (List.pairwise_cons.mp (by simpa using hpw)).2
        · intro x hx y hy
          simp only [List.mem_map] at hx hy
          obtain ⟨cx, hcx, rfl⟩ := hx
          obtain ⟨cy, hcy, rfl⟩ := hy
          have hsubx := fieldControls_sub resolve iname f a
            (hwf f (by simp)) h1 cx hcx
          obtain ⟨g, hg, l, hl, hcyl⟩ :=
            fieldsControls_origin resolve iname fs' b h2 cy hcy
          have hsuby := fieldControls_sub resolve iname g l
            (hwf g (by simp [hg])) hl cy hcyl
          have hsepf : sepRange (fieldRange f) (fieldRange g) := by
            have := (List.pairwise_cons.mp (by simpa using hpw :
              (fieldRange f :: fs'.map fieldRange).Pairwise sepRange)).1
            exact this (fieldRange g) (List.mem_map_of_mem fieldRange hg)
          exact sepRange_of_sub _ _ _ _ hsubx hsuby hsepf

theorem build_cons (resolve : Usage → Option HutUsage)
    (iname : Option Nat → Usage → Option String) (r : OutputReport)
    (rs : List OutputReport) :
    build resolve iname (r :: rs) =
      (buildReport resolve iname r).bind (fun rep =>
        (build resolve iname rs).bind (fun rest =>
          some (if rep.outputs.isEmpty then rest else rep :: rest))) :=
  rfl

theorem build_origin (resolve : Usage → Option HutUsage)
    (iname : Option Nat → Usage → Option String) :
    ∀ (input : List OutputReport) (reps : List Report),
      build resolve iname input = some reps →
      ∀ rp ∈ reps, ∃ orep ∈ input,
        rp.id = orep.report_id.getD 0 ∧
        rp.size_in_bits = orep.size_in_bits ∧
        ∃ cs, fieldsControls resolve iname orep.fields = some cs ∧
          rp.outputs = cs := by
  intro input
  induction input with
  | nil =>
    intro reps h rp hrp
    simp only [build, Option.some.injEq] at h
    subst h
    simp at hrp
  | cons r rs ih =>
    intro reps h rp hrp
    rw [build_cons] at h
    cases h1 : buildReport resolve iname r with
    | none => rw [h1] at h; simp at h
    | some rep =>
      rw [h1] at h
      cases h2 : build resolve iname rs with
      | none => rw [h2] at h; simp at h
      | some rest =>
        rw [h2] at h
        simp only [Option.some_bind, Option.some.injEq] at h
        subst h
        have hrep : ∃ cs, fieldsControls resolve iname r.fields = some cs ∧
            rep.id = r.report_id.getD 0 ∧
            rep.size_in_bits = r.size_in_bits ∧ rep.outputs = cs := by
          simp only [buildReport] at h1
          cases h3 : fieldsControls resolve iname r.fields with
          | none => rw [h3] at h1; simp at h1
          | some cs =>
            rw [h3] at h1
            simp only [Option.map_some', Option.some.injEq] at h1
            subst h1
            exact ⟨cs, rfl, rfl, rfl, rfl⟩
        split at hrp
        · obtain ⟨orep, ho, hrest⟩ := ih rest h2 rp hrp
          exact ⟨orep, by simp [ho], hrest⟩
        · rcases List.mem_cons.mp hrp with rfl | hm
          · obtain ⟨cs, hcs, hid, hsz, hout⟩ := hrep
            exact ⟨r, by simp, hid, hsz, cs, hcs, hout⟩
          · obtain ⟨orep, ho, hrest⟩ := ih rest h2 rp hm
            exact ⟨orep, by simp [ho], hrest⟩

theorem fieldsControls_field_some (resolve : Usage → Option HutUsage)
    (iname : Option Nat → Usage → Option String) :
    ∀ (fs : List ReportField) (cs : List DeviceOutput),
      fieldsControls resolve iname fs = some cs →
      ∀ f ∈ fs, ∃ l, fieldControls resolve iname f = some l := by
  intro fs
  induction fs with
  | nil => intro cs _ f hf; simp at hf
  | cons g fs' ih =>
    intro cs h f hf
    rw [fieldsControls_cons] at h
    cases h1 : fieldControls resolve iname g with
    | none => rw [h1] at h; simp at h
    | some a =>
      rw [h1] at h
      cases h2 : fieldsControls resolve iname fs' with
      | none => rw [h2] at h; simp at h
      | some b =>
        rcases List.mem_cons.mp hf with rfl | hm
        · exact ⟨a, h1⟩
        · exact ih b h2 f hm

/-- C6 (confirmed): every control built by `reports` whose bit range has
length exactly 1 has kind `Toggle`, regardless of the field's declared
logical minimum and maximum. -/
theorem claim_C6_toggle_precedence (resolve : Usage → Option HutUsage)
    (iname : Option Nat → Usage → Option String)
    (input : List OutputReport) (reps : List Report)
    (h : build resolve iname input = some reps) :
    ∀ rp ∈ reps, ∀ c ∈ rp.outputs, c.bits.stop - c.bits.start = 1 →
      c.kind = .Toggle := by
  intro rp hrp c hc hlen
  obtain ⟨orep, ho, hid, hsz, cs, hcs, hout⟩ :=
    build_origin resolve iname input reps h rp hrp
  rw [hout] at hc
  obtain ⟨f, hf, l, hl, hcl⟩ :=
    fieldsControls_origin resolve iname orep.fields cs hcs c hc
  exact (fieldControls_kind_facts resolve iname f l hl c hcl).1 hlen

/-- Witness for C6: the 1-bit variable field of `goodInput` becomes a
`Toggle` control. -/
theorem claim_C6_toggle_precedence_witness :
    build sampleResolve sampleIName goodInput = some [goodRep] ∧
      goodToggle.kind = DeviceOutputValue.Toggle :=
  ⟨by decide,
    claim_C6_toggle_precedence sampleResolve sampleIName goodInput [goodRep]
      (by decide) goodRep (by decide) goodToggle (by decide) (by decide)⟩

/-- C9 (confirmed): every control produced by `reports` has kind
`Toggle` or `Unsigned`; a builder-produced report never contains a
`Signed` control (so the `Signed` branch of `write_report` is
unreachable for reports obtained from `reports()`). -/
theorem claim_C9_no_signed_controls (resolve : Usage → Option HutUsage)
    (iname : Option Nat → Usage → Option String)
    (input : List OutputReport) (reps : List Report)
    (h : build resolve iname input = some reps) :
    ∀ rp ∈ reps, ∀ c ∈ rp.outputs,
      c.kind = .Toggle ∨ ∃ lo hi, c.kind = .Unsigned lo hi := by
  intro rp hrp c hc
  obtain ⟨orep, ho, hid, hsz, cs, hcs, hout⟩ :=
    build_origin resolve iname input reps h rp hrp
  rw [hout] at hc
  obtain ⟨f, hf, l, hl, hcl⟩ :=
    fieldsControls_origin resolve iname orep.fields cs hcs c hc
  exact (fieldControls_kind_facts resolve iname f l hl c hcl).2

/-- Witness for C9 at an `Unsigned` control of `goodRep`. -/
theorem claim_C9_no_signed_controls_witness :
    build sampleResolve sampleIName goodInput = some [goodRep] ∧
      ((⟨.Unsigned 0 5, 0, ⟨10, 12⟩, some "Unk 0"⟩ :
          DeviceOutput).kind = .Toggle ∨
        ∃ lo hi, (⟨.Unsigned 0 5, 0, ⟨10, 12⟩, some "Unk 0"⟩ :
          DeviceOutput).kind = .Unsigned lo hi) :=
  ⟨by decide,
    claim_C9_no_signed_controls sampleResolve sampleIName goodInput [goodRep]
      (by decide) goodRep (by decide)
      ⟨.Unsigned 0 5, 0, ⟨10, 12⟩, some "Unk 0"⟩ (by decide)⟩

/-- C3 (corrected): provided every input report's field bit ranges are
well-formed (`start ≤ stop`), lie within `[0, sizeInBits)`, and are
pairwise disjoint — the external parser's layout guarantees, which the
builder does not itself re-check — every built report's controls have
pairwise disjoint bit ranges, each within `[0, sizeInBits)`. -/
theorem claim_C3_range_invariants (resolve : Usage → Option HutUsage)
    (iname : Option Nat → Usage → Option String)
    (input : List OutputReport) (reps : List Report)
    (h : build resolve iname input = some reps)
    (hwf : ∀ orep ∈ input, ∀ f ∈ orep.fields,
      (fieldRange f).start ≤ (fieldRange f).stop ∧
      (fieldRange f).stop ≤ orep.size_in_bits)
    (hsep : ∀ orep ∈ input,
      (orep.fields.map fieldRange).Pairwise sepRange) :
    ∀ rp ∈ reps, (∀ c ∈ rp.outputs, c.bits.stop ≤ rp.size_in_bits) ∧
      (rp.outputs.map (fun c => c.bits)).Pairwise sepRange := by
  intro rp hrp
  obtain ⟨orep, ho, hid, hsz, cs, hcs, hout⟩ :=
    build_origin resolve iname input reps h rp hrp
  constructor
  · intro c hc
    rw [hout] at hc
    obtain ⟨f, hf, l, hl, hcl⟩ :=
      fieldsControls_origin resolve iname orep.fields cs hcs c hc
    have hsub := fieldControls_sub resolve iname f l
      ((hwf orep ho f hf).1) hl c hcl
    have h2 := (hwf orep ho f hf).2
    rw [hsz]
    unfold subRange at hsub
    omega
  · rw [hout]
    exact fieldsControls_pairwise resolve iname orep.fields cs hcs
      (fun f hf => (hwf orep ho f hf).1) (hsep orep ho)

/-- Witness for C3 on the well-formed `goodInput`. -/
theorem claim_C3_range_invariants_witness :
    build sampleResolve sampleIName goodInput = some [goodRep] ∧
      (∀ orep ∈ goodInput, ∀ f ∈ orep.fields,
        (fieldRange f).start ≤ (fieldRange f).stop ∧
        (fieldRange f).stop ≤ orep.size_in_bits) ∧
      (∀ orep ∈ goodInput,
        (orep.fields.map fieldRange).Pairwise sepRange) ∧
      ((∀ c ∈ goodRep.outputs, c.bits.stop ≤ goodRep.size_in_bits) ∧
        (goodRep.outputs.map (fun c => c.bits)).Pairwise sepRange) :=
  ⟨by decide, by decide, by decide,
    claim_C3_range_invariants sampleResolve sampleIName goodInput [goodRep]
      (by decide) (by decide) (by decide) goodRep (by decide)⟩

/-- Counterexample to C3 as stated: the builder accepts `c3Input`
unchanged although its single field's range `0..2` exceeds
`sizeInBits = 1`, and returns a report whose control's bit range ends
past `sizeInBits` — the invariant is inherited from the parser, not
enforced by the builder. -/
theorem claim_C3_cex :
    build sampleResolve sampleIName c3Input = some [c3BuiltReport] ∧
      c3Ctrl ∈ c3BuiltReport.outputs ∧
      c3BuiltReport.size_in_bits < c3Ctrl.bits.stop := by
  decide

/-- C10 (confirmed): the `Array` branch divides by
`usage_list.len()` unguarded, so an output report containing an array
field with an empty usage list makes `reports()` panic (the concrete
`divInput`); and `reports()` succeeds only when every array field of
every processed report declares at least one usage. -/
theorem claim_C10_array_division_panic :
    build sampleResolve sampleIName divInput = none ∧
      (∀ (resolve : Usage → Option HutUsage)
        (iname : Option Nat → Usage → Option String)
        (input : List OutputReport) (reps : List Report),
        build resolve iname input = some reps →
        ∀ orep ∈ input, ∀ f ∈ orep.fields, ∀ af : ArrayField,
          f = .Array af → af.usage_list ≠ []) := by
  constructor
  · decide
  · intro resolve iname input
    induction input with
    | nil =>
      intro reps _ orep ho
      simp at ho
    | cons r rs ih =>
      intro reps h orep ho f hf af hfa
      rw [build_cons] at h
      cases h1 : buildReport resolve iname r with
      | none => rw [h1] at h; simp at h
      | some rep =>
        rw [h1] at h
        cases h2 : build resolve iname rs with
        | none => rw [h2] at h; simp at h
        | some rest =>
          rcases List.mem_cons.mp ho with rfl | hm
          · subst hfa
            simp only [buildReport] at h1
            cases h3 : fieldsControls resolve iname orep.fields with
            | none => rw [h3] at h1; simp at h1
            | some cs =>
              obtain ⟨l, hl⟩ := fieldsControls_field_some resolve iname
                orep.fields cs h3 (.Array af) hf
              simp only [fieldControls, arrayFieldControls] at hl
              split at hl
              · simp at hl
              · rename_i hne
                intro hempty
                rw [hempty] at hne
                simp at hne
          · exact ih rest h2 orep hm f hf af hfa

/-- Witness for the totality direction of C10: a successful build whose
array field indeed has a non-empty usage list. -/
theorem claim_C10_array_division_panic_witness :
    build sampleResolve sampleIName goodInput = some [goodRep] ∧
      goodAF.usage_list ≠ [] :=
  ⟨by decide,
    claim_C10_array_division_panic.2 sampleResolve sampleIName goodInput
      [goodRep] (by decide)
      ⟨some 2, 24, [.Variable ⟨⟨8, 9⟩, ledU, 0, 1, none, true⟩,
        .Array goodAF]⟩ (by decide) (.Array goodAF) (by decide) goodAF rfl⟩

theorem filterMap_ite_length {α β : Type} (p : α → Bool) (g : α → β)
    (l : List α) :
    (l.filterMap (fun x => if p x then none else some (g x))).length =
      (l.filter (fun x => !p x)).length := by
  induction l with
  | nil => rfl
  | cons x xs ih =>
    by_cases hp : p x = true
    · simp [List.filterMap_cons, List.filter_cons, hp, ih]
    · simp [List.filterMap_cons, List.filter_cons, hp, ih]

/-- C8 (confirmed): an unresolvable usage, or one resolving to a
reserved or vendor-defined page, is vendor-classified; a
vendor-classified variable field contributes no control; and an array
field contributes exactly one control per iterated **non**-vendor slot,
so vendor slots contribute none. -/
theorem claim_C8_vendor_filtering (resolve : Usage → Option HutUsage)
    (iname : Option Nat → Usage → Option String) :
    (∀ u : Usage, (resolve u = none ∨
        resolve u = some .ReservedUsagePage ∨
        resolve u = some .VendorDefinedPage) →
      isVendorUsage resolve u = true) ∧
    (∀ vf : VariableField, isVendorUsage resolve vf.usage = true →
      fieldControls resolve iname (.Variable vf) = some []) ∧
    (∀ (af : ArrayField) (outs : List DeviceOutput),
      fieldControls resolve iname (.Array af) = some outs →
      outs.length = ((List.range (minLen3 af)).filter
        (fun i => !isVendorUsage resolve (usageAt af i))).length) := by
  refine ⟨?_, ?_, ?_⟩
  · intro u hu
    unfold isVendorUsage
    rcases hu with h | h | h <;> rw [h]
  · intro vf hv
    simp [fieldControls, hv]
  · intro af outs h
    have hb := afc_bits resolve iname af outs h
    have hlen : outs.length = (specSlotRanges resolve af).length := by
      rw [← hb, List.length_map]
    rw [hlen]
    unfold specSlotRanges
    exact filterMap_ite_length
      (fun i => isVendorUsage resolve (usageAt af i))
      (fun i => (⟨af.bits.start + i * spanWidth af,
        af.bits.start + (i + 1) * spanWidth af⟩ : BitRange))
      (List.range (minLen3 af))

/-- Witness for C8: an unknown page is vendor-classified; a
vendor-defined variable field yields no control; the three-slot array
field yields one control per non-vendor slot. -/
theorem claim_C8_vendor_filtering_witness :
    isVendorUsage sampleResolve ⟨99, 0⟩ = true ∧
      fieldControls sampleResolve sampleIName (.Variable vendorVF) =
        some [] ∧
      goodAFouts.length = ((List.range (minLen3 goodAF)).filter
        (fun i => !isVendorUsage sampleResolve (usageAt goodAF i))).length :=
  ⟨(claim_C8_vendor_filtering sampleResolve sampleIName).1 ⟨99, 0⟩
      (Or.inl (by decide)),
    (claim_C8_vendor_filtering sampleResolve sampleIName).2.1 vendorVF
      (by decide),
    (claim_C8_vendor_filtering sampleResolve sampleIName).2.2 goodAF
      goodAFouts (by decide)⟩

theorem writeOutput_value_congr (buf : List Bool) (k : DeviceOutputValue)
    (b : BitRange) (nm : Option String) (v₁ v₂ : ℚ)
    (h : clampQ v₁ = clampQ v₂) :
    writeOutput buf ⟨k, v₁, b, nm⟩ = writeOutput buf ⟨k, v₂, b, nm⟩ := by
  cases k <;> simp only [writeOutput] <;> rw [h]

theorem writeOutputs_setVal (os : List DeviceOutput) :
    ∀ (i : Nat) (buf : List Bool) (v₁ v₂ : ℚ), clampQ v₁ = clampQ v₂ →
      writeOutputs buf (setVal os i v₁) = writeOutputs buf (setVal os i v₂) := by
  induction os with
  | nil => intro i buf v₁ v₂ _; rfl
  | cons o os' ih =>
    intro i buf v₁ v₂ h
    cases i with
    | zero =>
      obtain ⟨k, rv, b, nm⟩ := o
      simp only [setVal]
      show (writeOutput buf ⟨k, v₁, b, nm⟩).bind
          (fun bb => writeOutputs bb os') =
        (writeOutput buf ⟨k, v₂, b, nm⟩).bind
          (fun bb => writeOutputs bb os')
      rw [writeOutput_value_congr buf k b nm v₁ v₂ h]
    | succ n =>
      simp only [setVal]
      show (writeOutput buf o).bind
          (fun bb => writeOutputs bb (setVal os' n v₁)) =
        (writeOutput buf o).bind
          (fun bb => writeOutputs bb (setVal os' n v₂))
      cases writeOutput buf o with
      | none => rfl
      | some bb =>
        simp only [Option.some_bind]
        exact ih n bb v₁ v₂ h

theorem clampQ_neg_one_eq : clampQ (-1) = clampQ 0 := by
  norm_num [clampQ]

theorem clampQ_two_eq : clampQ 2 = clampQ 1 := by
  norm_num [clampQ]

/-- C7 (confirmed): setting any control's value to `-1.0` encodes to the
same byte buffer as `0.0`, and `2.0` the same as `1.0`, for every report
and every control kind — `write_report` clamps to `[0, 1]` before
encoding. -/
theorem claim_C7_clamp_equivalence (r : Report) (i : Nat) :
    encode (setControlValue r i (-1)) = encode (setControlValue r i 0) ∧
      encode (setControlValue r i 2) = encode (setControlValue r i 1) := by
  constructor
  · simp only [encode, encodeBits, setControlValue]
    rw [writeOutputs_setVal r.outputs i _ (-1) 0 clampQ_neg_one_eq]
  · simp only [encode, encodeBits, setControlValue]
    rw [writeOutputs_setVal r.outputs i _ 2 1 clampQ_two_eq]

theorem encodeScenario_eval : encode scenarioReport = some [128, 0] := by
  have h1 : decide (epsF < clampQ 1) = true :=
    decide_eq_true (by norm_num [epsF, clampQ])
  simp only [encode, encodeBits, scenarioReport, writeOutputs, writeOutput, h1]
  decide

/-- C2 (corrected): for the scenario report (id 0, `sizeInBits = 9`, one
`Toggle` at bits `0..1`, value `1.0`), `write_report` produces
`[0x80, 0x00]`: bit index 0 addresses the **most significant bit of
byte 0** — the byte that also holds the report id — not byte 1, so the
id byte is overwritten to `0x80` and the second byte stays `0x00`. -/
theorem claim_C2_scenario_buffer : encode scenarioReport = some [128, 0] :=
  encodeScenario_eval

/-- Counterexample to C2 as stated: the scenario buffer is not
`[0x00, 0x80]`. -/
theorem claim_C2_cex : encode scenarioReport ≠ some [0, 128] := by
  rw [encodeScenario_eval]
  decide

theorem wrap32_eq_self (z : Int) (h1 : -(2 ^ 31) ≤ z) (h2 : z < 2 ^ 31) :
    wrap32 z = z := by
  unfold wrap32
  have h3 : (z + 2 ^ 31) % 2 ^ 32 = z + 2 ^ 31 :=
    Int.emod_eq_of_lt (by omega) (by omega)
  omega

theorem u32cast_eq_toNat (z : Int) (h1 : 0 ≤ z) (h2 : z < 2 ^ 32) :
    u32cast z = z.toNat := by
  unfold u32cast
  rw [Int.emod_eq_of_lt h1 h2]

/-- C1 (corrected): for an `Unsigned(lo..=hi)` control, `write_report`
computes the integer `intValue = lo + trunc((hi - lo) * v)` — `v` the
value clamped to `[0, 1]`, `trunc` the Rust `as i32` truncation toward
zero — **not** round-to-nearest; under no-overflow side conditions the
code's wrapped `i32`/`u32` arithmetic coincides with the exact
formula. -/
theorem claim_C1_unsigned_trunc_value (lo hi : Int) (x : ℚ)
    (hd1 : -(2 ^ 31) ≤ hi - lo) (hd2 : hi - lo < 2 ^ 31)
    (hv1 : 0 ≤ lo + ratTrunc (((hi - lo : Int) : ℚ) * clampQ x))
    (hv2 : lo + ratTrunc (((hi - lo : Int) : ℚ) * clampQ x) < 2 ^ 31) :
    unsignedValue lo hi (clampQ x) =
      (lo + ratTrunc (((hi - lo : Int) : ℚ) * clampQ x)).toNat := by
  unfold unsignedValue
  rw [wrap32_eq_self (hi - lo) hd1 hd2]
  rw [wrap32_eq_self _ (by omega) (by omega)]
  exact u32cast_eq_toNat _ hv1 (by omega)

theorem ratTrunc_three_half :
    ratTrunc (((3 - 0 : Int) : ℚ) * clampQ (1 / 2)) = 1 := by
  norm_num [ratTrunc, clampQ]

theorem c1_value_nonneg :
    0 ≤ (0 : Int) + ratTrunc (((3 - 0 : Int) : ℚ) * clampQ (1 / 2)) := by
  norm_num [ratTrunc, clampQ]

theorem c1_value_small :
    (0 : Int) + ratTrunc (((3 - 0 : Int) : ℚ) * clampQ (1 / 2)) < 2 ^ 31 := by
  norm_num [ratTrunc, clampQ]

/-- Witness for C1 at `Unsigned(0..=3)`, value `1/2`: the encoded
integer is `0 + trunc(3/2) = 1`. -/
theorem claim_C1_unsigned_trunc_value_witness :
    (-(2 ^ 31) : Int) ≤ 3 - 0 ∧ ((3 - 0 : Int) < 2 ^ 31) ∧
      (0 ≤ (0 : Int) + ratTrunc (((3 - 0 : Int) : ℚ) * clampQ (1 / 2))) ∧
      ((0 : Int) + ratTrunc (((3 - 0 : Int) : ℚ) * clampQ (1 / 2)) < 2 ^ 31) ∧
      unsignedValue 0 3 (clampQ (1 / 2)) =
        ((0 : Int) + ratTrunc (((3 - 0 : Int) : ℚ) * clampQ (1 / 2))).toNat :=
  ⟨by decide, by decide, c1_value_nonneg, c1_value_small,
    claim_C1_unsigned_trunc_value 0 3 (1 / 2) (by decide) (by decide)
      c1_value_nonneg c1_value_small⟩

/-- Counterexample to C1 as stated: for `Unsigned(0..=3)` at clamped
value `1/2` the code computes `0 + trunc(3 * (1/2)) = 1`, while the
claim's round-to-nearest formula gives `0 + round(3/2) = 2`. -/
theorem claim_C1_cex :
    unsignedValue 0 3 (clampQ (1 / 2)) = 1 ∧
      (0 : Int) + round (((3 - 0 : Int) : ℚ) * clampQ (1 / 2)) = 2 ∧
      (1 : Nat) ≠ (2 : Nat) := by
  refine ⟨?_, ?_, by decide⟩
  · norm_num [unsignedValue, clampQ, ratTrunc, wrap32, u32cast]
  · norm_num [clampQ, round_eq]
